import Mathlib

/-!
Shallow embedding of `src/streamlit_app.py` (class `SimilarityGrouper`).

Floats are modelled as rationals.  `difflib.SequenceMatcher(None, a, b).ratio()`
is modelled by `seqRatio` below, following the defining Ratcliff/Obershelp
algorithm used by CPython's `difflib` for strings shorter than 200 characters
(the autojunk heuristic never fires below that length, and the words compared
here are single whitespace-delimited tokens): repeatedly take the longest
matching block, where ties are broken by the smallest start index in `a` and
then the smallest start index in `b` (the first strict improvement found by the
`j2len` dynamic program), recurse on the two sides, sum the matched lengths
`M`, and return `2*M / (len a + len b)` (`1` when both strings are empty).
-/

/-- Length of the longest common prefix of two character lists. -/
def commonPrefixLen : List Char → List Char → Nat
  | x :: xs, y :: ys => if x = y then commonPrefixLen xs ys + 1 else 0
  | _, _ => 0

/-- The `j2len` value of difflib's `find_longest_match` dynamic program at
cell `(i, j)`: the length of the longest common suffix of `a.take (i+1)` and
`b.take (j+1)`, i.e. of the longest matching block ending at `a[i]`/`b[j]`. -/
def matchLenAt (a b : List Char) (i j : Nat) : Nat :=
  commonPrefixLen ((a.take (i + 1)).reverse) ((b.take (j + 1)).reverse)

/-- One cell update of difflib's `find_longest_match` scan: at cell `(i, j)`
the running best `(besti, bestj, bestsize)` is replaced by the block of length
`k = matchLenAt a b i j` ending at `(i, j)` exactly when `k` strictly exceeds
the running best size. -/
def findBestCell (a b : List Char) (i : Nat) (best : Nat × Nat × Nat)
    (j : Nat) : Nat × Nat × Nat :=
  let k := matchLenAt a b i j
  if best.2.2 < k then (i + 1 - k, j + 1 - k, k) else best

/-- One row (`i` fixed, `j` ascending) of the `find_longest_match` scan. -/
def findBestRow (a b : List Char) (best : Nat × Nat × Nat) (i : Nat) :
    Nat × Nat × Nat :=
  (List.range b.length).foldl (findBestCell a b i) best

/-- difflib's `find_longest_match` on the whole of `a` and `b` (no junk):
returns `(besti, bestj, bestsize)`.  The fold scans cells in the same order as
the CPython implementation (`i` ascending, then `j` ascending) and updates only
on a strict improvement, so ties are resolved exactly as in difflib. -/
def findBest (a b : List Char) : Nat × Nat × Nat :=
  (List.range a.length).foldl (findBestRow a b) (0, 0, 0)

/-- Fuel-indexed total number of matched characters (the sum `M` of the sizes
of difflib's matching blocks).  The fuel only serves to make the recursion
structural; `matchTotal` supplies enough of it. -/
def matchTotalF : Nat → List Char → List Char → Nat
  | 0, _, _ => 0
  | fuel + 1, a, b =>
    let r := findBest a b
    if r.2.2 = 0 then 0
    else
      matchTotalF fuel (a.take r.1) (b.take r.2.1) + r.2.2 +
        matchTotalF fuel (a.drop (r.1 + r.2.2)) (b.drop (r.2.1 + r.2.2))

/-- Total number of matched characters between `a` and `b`. -/
def matchTotal (a b : List Char) : Nat := matchTotalF (a.length + 1) a b

/-- `SequenceMatcher.ratio` on character lists: `2*M / (len a + len b)`,
and `1` when both inputs are empty (difflib's `_calculate_ratio`). -/
def seqRatioL (a b : List Char) : ℚ :=
  if a.length + b.length = 0 then 1
  else 2 * (matchTotal a b : ℚ) / ((a.length : ℚ) + (b.length : ℚ))

/-- `difflib.SequenceMatcher(None, s, t).ratio()`. -/
def seqRatio (s t : String) : ℚ := seqRatioL s.toList t.toList

/-- Python's `str.lower()` (ASCII case folding suffices for this model). -/
def pyLower (s : String) : String := String.mk (s.toList.map Char.toLower)

/-- Helper for `splitWs`: `cur` is the current in-progress token, reversed. -/
def splitWsAux : List Char → List Char → List (List Char)
  | [], cur => if cur.isEmpty then [] else [cur.reverse]
  | c :: cs, cur =>
    if c.isWhitespace then
      if cur.isEmpty then splitWsAux cs [] else cur.reverse :: splitWsAux cs []
    else splitWsAux cs (c :: cur)

/-- Python's `str.split()` with no argument: split on runs of whitespace,
discarding empty tokens. -/
def splitWs (s : String) : List String := (splitWsAux s.toList []).map String.mk

/-- The engine's configuration, as stored by `SimilarityGrouper.__init__`
(`src/streamlit_app.py:14-16`): the two arguments are recorded on the
instance unchanged, with no validation. -/
structure SimilarityGrouper where
  similarity_threshold : ℚ
  min_similar_words : ℤ

/-- `SimilarityGrouper.__init__`: stores both parameters as-is. -/
def SimilarityGrouper.init (similarity_threshold : ℚ) (min_similar_words : ℤ) :
    SimilarityGrouper :=
  ⟨similarity_threshold, min_similar_words⟩

/-- `calculate_similarity` (`src/streamlit_app.py:18-21`): lower-case both
words, then `SequenceMatcher(None, word1, word2).ratio()`. -/
def SimilarityGrouper.calculate_similarity (_g : SimilarityGrouper)
    (word1 word2 : String) : ℚ :=
  seqRatio (pyLower word1) (pyLower word2)

/-- The `similar_pairs` list built by `get_similar_words_count`
(`src/streamlit_app.py:23-34`): for each `w1` in `phrase1`'s lower-cased
tokens and each `w2` in `phrase2`'s, if neither `(w1, w2)` nor `(w2, w1)` has
been recorded and the similarity exceeds the threshold, append `(w1, w2)`. -/
def SimilarityGrouper.similar_pairs (g : SimilarityGrouper)
    (phrase1 phrase2 : String) : List (String × String) :=
  (splitWs (pyLower phrase1)).foldl
    (fun pairs w1 =>
      (splitWs (pyLower phrase2)).foldl
        (fun pairs w2 =>
          if (w1, w2) ∉ pairs ∧ (w2, w1) ∉ pairs then
            if g.similarity_threshold < g.calculate_similarity w1 w2 then
              pairs ++ [(w1, w2)]
            else pairs
          else pairs)
        pairs)
    []

/-- `get_similar_words_count` (`src/streamlit_app.py:23-35`): the length of
the accumulated `similar_pairs` list. -/
def SimilarityGrouper.get_similar_words_count (g : SimilarityGrouper)
    (phrase1 phrase2 : String) : ℕ :=
  (g.similar_pairs phrase1 phrase2).length

/-- `are_phrases_similar` (`src/streamlit_app.py:37-40`). -/
def SimilarityGrouper.are_phrases_similar (g : SimilarityGrouper)
    (phrase1 phrase2 : String) : Bool :=
  g.min_similar_words ≤ (g.get_similar_words_count phrase1 phrase2 : ℤ)

/-- `extract_keywords` (`src/streamlit_app.py:42-45`): the set of lower-cased
tokens of the phrase. -/
def SimilarityGrouper.extract_keywords (_g : SimilarityGrouper)
    (phrase : String) : Finset String :=
  (splitWs (pyLower phrase)).toFinset

/-- A cluster, as in `group_similar_phrases`: the accumulated keyword set
paired with the ordered member-phrase list. -/
abbrev Cluster := Finset String × List String

/-- The `average_similarity` computed for one candidate cluster
(`src/streamlit_app.py:57-61`): total qualifying pairs against all members,
divided by the member count. -/
def SimilarityGrouper.average_similarity (g : SimilarityGrouper)
    (phrase : String) (c : Cluster) : ℚ :=
  ((c.2.map fun gp => g.get_similar_words_count phrase gp).sum : ℚ) /
    (c.2.length : ℚ)

/-- The best-match scan of `group_similar_phrases`
(`src/streamlit_app.py:52-65`): fold over the clusters in creation order,
carrying `(best_match, best_match_score)` (initially `(None, 0)`), updating
when `average >= min_similar_words` and `average > best_match_score`. -/
def SimilarityGrouper.findBestMatch (g : SimilarityGrouper) (phrase : String) :
    ℕ → Option ℕ × ℚ → List Cluster → Option ℕ × ℚ
  | _, best, [] => best
  | idx, best, c :: rest =>
    g.findBestMatch phrase (idx + 1)
      (if (g.min_similar_words : ℚ) ≤ g.average_similarity phrase c ∧
          best.2 < g.average_similarity phrase c then
        (some idx, g.average_similarity phrase c)
      else best) rest

/-- One iteration of the outer loop of `group_similar_phrases`
(`src/streamlit_app.py:51-74`): find the best matching cluster; if one exists,
union the phrase's keywords into it and append the phrase to its members,
otherwise append a fresh singleton cluster.  (The inner `none` fallback of the
lookup is unreachable: the scan only ever returns indices of `groups`.) -/
def SimilarityGrouper.assignPhrase (g : SimilarityGrouper)
    (groups : List Cluster) (phrase : String) : List Cluster :=
  match (g.findBestMatch phrase 0 (none, 0) groups).1 with
  | some idx =>
    match groups.get? idx with
    | some c => groups.set idx (c.1 ∪ g.extract_keywords phrase, c.2 ++ [phrase])
    | none => groups
  | none => groups ++ [(g.extract_keywords phrase, [phrase])]

/-- `group_similar_phrases` (`src/streamlit_app.py:47-76`). -/
def SimilarityGrouper.group_similar_phrases (g : SimilarityGrouper)
    (phrases : List String) : List Cluster :=
  phrases.foldl g.assignPhrase []

/-! ### Generic fold invariance -/

/-- A predicate preserved by every step of a left fold holds of the result. -/
theorem foldl_preserve {α β : Type*} {P : β → Prop} {f : β → α → β} :
    ∀ (l : List α) (init : β), P init →
      (∀ b a, a ∈ l → P b → P (f b a)) → P (l.foldl f init) := by
  intro l
  induction l with
  | nil => intro init h0 _; exact h0
  | cons x xs ih =>
    intro init h0 hf
    exact ih _ (hf _ _ (List.mem_cons_self _ _) h0)
      (fun b a ha hb => hf b a (List.mem_cons_of_mem _ ha) hb)

/-! ### Bounds on the matching core -/

theorem commonPrefixLen_le_left : ∀ xs ys : List Char,
    commonPrefixLen xs ys ≤ xs.length := by
  intro xs
  induction xs with
  | nil => intro ys; cases ys <;> simp [commonPrefixLen]
  | cons x xs ih =>
    intro ys
    cases ys with
    | nil => simp [commonPrefixLen]
    | cons y ys =>
      simp only [commonPrefixLen, List.length_cons]
      split
      · exact Nat.succ_le_succ (ih ys)
      · exact Nat.zero_le _

theorem commonPrefixLen_le_right : ∀ xs ys : List Char,
    commonPrefixLen xs ys ≤ ys.length := by
  intro xs
  induction xs with
  | nil => intro ys; cases ys <;> simp [commonPrefixLen]
  | cons x xs ih =>
    intro ys
    cases ys with
    | nil => simp [commonPrefixLen]
    | cons y ys =>
      simp only [commonPrefixLen, List.length_cons]
      split
      · exact Nat.succ_le_succ (ih ys)
      · exact Nat.zero_le _

theorem matchLenAt_le_left (a b : List Char) (i j : Nat) :
    matchLenAt a b i j ≤ i + 1 := by
  have h := commonPrefixLen_le_left ((a.take (i + 1)).reverse)
    ((b.take (j + 1)).reverse)
  simp only [List.length_reverse, List.length_take] at h
  exact h.trans (by omega)

theorem matchLenAt_le_right (a b : List Char) (i j : Nat) :
    matchLenAt a b i j ≤ j + 1 := by
  have h := commonPrefixLen_le_right ((a.take (i + 1)).reverse)
    ((b.take (j + 1)).reverse)
  simp only [List.length_reverse, List.length_take] at h
  exact h.trans (by omega)

theorem findBest_bounds (a b : List Char) :
    (findBest a b).1 + (findBest a b).2.2 ≤ a.length ∧
      (findBest a b).2.1 + (findBest a b).2.2 ≤ b.length := by
  unfold findBest
  apply foldl_preserve
    (P := fun best : Nat × Nat × Nat =>
      best.1 + best.2.2 ≤ a.length ∧ best.2.1 + best.2.2 ≤ b.length)
  · exact ⟨Nat.zero_le _, Nat.zero_le _⟩
  · intro best i hi hP
    have hi' : i < a.length := List.mem_range.mp hi
    unfold findBestRow
    apply foldl_preserve
      (P := fun best : Nat × Nat × Nat =>
        best.1 + best.2.2 ≤ a.length ∧ best.2.1 + best.2.2 ≤ b.length)
    · exact hP
    · intro best' j hj hP'
      have hj' : j < b.length := List.mem_range.mp hj
      unfold findBestCell
      dsimp only
      split
      · have h1 := matchLenAt_le_left a b i j
        have h2 := matchLenAt_le_right a b i j
        constructor <;> dsimp only <;> omega
      · exact hP'

theorem findBest_nil_left (b : List Char) : findBest [] b = (0, 0, 0) := by
  simp [findBest]

theorem findBest_nil_right (a : List Char) : findBest a [] = (0, 0, 0) := by
  unfold findBest
  apply foldl_preserve (P := fun best : Nat × Nat × Nat => best = (0, 0, 0))
  · rfl
  · intro best i _ hb
    simp [findBestRow, hb]

theorem matchTotalF_congr : ∀ (n : Nat) (a b : List Char) (f1 f2 : Nat),
    a.length ≤ n → n < f1 → n < f2 → matchTotalF f1 a b = matchTotalF f2 a b := by
  intro n
  induction n with
  | zero =>
    intro a b f1 f2 hn h1 h2
    obtain ⟨g1, rfl⟩ : ∃ g, f1 = g + 1 := ⟨f1 - 1, by omega⟩
    obtain ⟨g2, rfl⟩ : ∃ g, f2 = g + 1 := ⟨f2 - 1, by omega⟩
    have ha : a = [] := List.length_eq_zero.mp (by omega)
    subst ha
    simp [matchTotalF, findBest_nil_left]
  | succ n ih =>
    intro a b f1 f2 hn h1 h2
    obtain ⟨g1, rfl⟩ : ∃ g, f1 = g + 1 := ⟨f1 - 1, by omega⟩
    obtain ⟨g2, rfl⟩ : ∃ g, f2 = g + 1 := ⟨f2 - 1, by omega⟩
    have hb := findBest_bounds a b
    simp only [matchTotalF]
    by_cases hk : (findBest a b).2.2 = 0
    · simp [hk]
    · have hia : (findBest a b).1 < a.length := by omega
      rw [if_neg hk, if_neg hk,
        ih (a.take (findBest a b).1) (b.take (findBest a b).2.1) g1 g2
          (by simp [List.length_take]; omega) (by omega) (by omega),
        ih (a.drop ((findBest a b).1 + (findBest a b).2.2))
          (b.drop ((findBest a b).2.1 + (findBest a b).2.2)) g1 g2
          (by simp [List.length_drop]; omega) (by omega) (by omega)]

theorem matchTotalF_succ (fuel : Nat) (a b : List Char) :
    matchTotalF (fuel + 1) a b =
      if (findBest a b).2.2 = 0 then 0
      else
        matchTotalF fuel (a.take (findBest a b).1) (b.take (findBest a b).2.1) +
          (findBest a b).2.2 +
          matchTotalF fuel (a.drop ((findBest a b).1 + (findBest a b).2.2))
            (b.drop ((findBest a b).2.1 + (findBest a b).2.2)) := rfl

/-- The recursion equation satisfied by `matchTotal`. -/
theorem matchTotal_eq (a b : List Char) :
    matchTotal a b =
      if (findBest a b).2.2 = 0 then 0
      else
        matchTotal (a.take (findBest a b).1) (b.take (findBest a b).2.1) +
          (findBest a b).2.2 +
          matchTotal (a.drop ((findBest a b).1 + (findBest a b).2.2))
            (b.drop ((findBest a b).2.1 + (findBest a b).2.2)) := by
  have hb := findBest_bounds a b
  rw [show matchTotal a b = matchTotalF (a.length + 1) a b from rfl,
    matchTotalF_succ]
  by_cases hk : (findBest a b).2.2 = 0
  · simp [hk]
  · rw [if_neg hk, if_neg hk]
    have e1 : matchTotalF a.length (a.take (findBest a b).1)
        (b.take (findBest a b).2.1) =
        matchTotal (a.take (findBest a b).1) (b.take (findBest a b).2.1) :=
      matchTotalF_congr (a.take (findBest a b).1).length _ _ a.length
        ((a.take (findBest a b).1).length + 1) le_rfl
        (by simp [List.length_take]; omega) (by omega)
    have e2 : matchTotalF a.length
        (a.drop ((findBest a b).1 + (findBest a b).2.2))
        (b.drop ((findBest a b).2.1 + (findBest a b).2.2)) =
        matchTotal (a.drop ((findBest a b).1 + (findBest a b).2.2))
          (b.drop ((findBest a b).2.1 + (findBest a b).2.2)) :=
      matchTotalF_congr (a.drop ((findBest a b).1 + (findBest a b).2.2)).length
        _ _ a.length
        ((a.drop ((findBest a b).1 + (findBest a b).2.2)).length + 1) le_rfl
        (by simp [List.length_drop]; omega) (by omega)
    rw [e1, e2]

theorem matchTotal_nil_left (b : List Char) : matchTotal [] b = 0 := by
  simp [matchTotal, matchTotalF, findBest_nil_left]

theorem matchTotal_nil_right (a : List Char) : matchTotal a [] = 0 := by
  rw [matchTotal_eq]
  simp [findBest_nil_right]

theorem matchTotal_le : ∀ (n : Nat) (a b : List Char), a.length ≤ n →
    matchTotal a b ≤ a.length ∧ matchTotal a b ≤ b.length := by
  intro n
  induction n with
  | zero =>
    intro a b hn
    have ha : a = [] := List.length_eq_zero.mp (by omega)
    subst ha
    simp [matchTotal_nil_left]
  | succ n ih =>
    intro a b hn
    rw [matchTotal_eq]
    by_cases hk : (findBest a b).2.2 = 0
    · simp [hk]
    · rw [if_neg hk]
      have hb := findBest_bounds a b
      have h1 := ih (a.take (findBest a b).1) (b.take (findBest a b).2.1)
        (by simp [List.length_take]; omega)
      have h2 := ih (a.drop ((findBest a b).1 + (findBest a b).2.2))
        (b.drop ((findBest a b).2.1 + (findBest a b).2.2))
        (by simp [List.length_drop]; omega)
      simp only [List.length_take, List.length_drop] at h1 h2
      constructor <;> omega

theorem matchTotal_le_left (a b : List Char) : matchTotal a b ≤ a.length :=
  (matchTotal_le a.length a b le_rfl).1

theorem matchTotal_le_right (a b : List Char) : matchTotal a b ≤ b.length :=
  (matchTotal_le a.length a b le_rfl).2

/-! ### Self-similarity of the matching core -/

theorem commonPrefixLen_self : ∀ l : List Char, commonPrefixLen l l = l.length := by
  intro l
  induction l with
  | nil => simp [commonPrefixLen]
  | cons x xs ih => simp [commonPrefixLen, ih]

theorem matchLenAt_self_diag (a : List Char) (i : Nat) (h : i < a.length) :
    matchLenAt a a i i = i + 1 := by
  unfold matchLenAt
  rw [commonPrefixLen_self]
  simp only [List.length_reverse, List.length_take]
  omega

theorem findBest_self (a : List Char) (ha : a ≠ []) :
    findBest a a = (0, 0, a.length) := by
  obtain ⟨m, hm⟩ : ∃ m, a.length = m + 1 :=
    ⟨a.length - 1, by
      have := List.length_pos.mpr ha
      omega⟩
  have hQcell : ∀ (best : Nat × Nat × Nat) (i j : Nat), i < a.length →
      j < a.length →
      (best.2.2 ≤ a.length ∧ (best.2.2 = a.length → best = (0, 0, a.length))) →
      ((findBestCell a a i best j).2.2 ≤ a.length ∧
        ((findBestCell a a i best j).2.2 = a.length →
          findBestCell a a i best j = (0, 0, a.length))) := by
    intro best i j hi hj hQ
    unfold findBestCell
    dsimp only
    split
    · have h1 := matchLenAt_le_left a a i j
      have h2 := matchLenAt_le_right a a i j
      constructor
      · dsimp only; omega
      · intro hk
        dsimp only at hk
        have hieq : i + 1 - matchLenAt a a i j = 0 := by omega
        have hjeq : j + 1 - matchLenAt a a i j = 0 := by omega
        rw [hieq, hjeq, hk]
    · exact hQ
  have hQrow : ∀ (best : Nat × Nat × Nat) (i : Nat), i < a.length →
      (best.2.2 ≤ a.length ∧ (best.2.2 = a.length → best = (0, 0, a.length))) →
      ((findBestRow a a best i).2.2 ≤ a.length ∧
        ((findBestRow a a best i).2.2 = a.length →
          findBestRow a a best i = (0, 0, a.length))) := by
    intro best i hi hQ
    unfold findBestRow
    apply foldl_preserve
      (P := fun best : Nat × Nat × Nat =>
        best.2.2 ≤ a.length ∧ (best.2.2 = a.length → best = (0, 0, a.length)))
    · exact hQ
    · intro best' j hj hQ'
      exact hQcell best' i j hi (List.mem_range.mp hj) hQ'
  -- peel off the last row and the last cell of that row
  unfold findBest
  rw [hm, List.range_succ, List.foldl_append, List.foldl_cons, List.foldl_nil]
  have hacc0 : ((List.range m).foldl (findBestRow a a) (0, 0, 0)).2.2 ≤ a.length ∧
      (((List.range m).foldl (findBestRow a a) (0, 0, 0)).2.2 = a.length →
        (List.range m).foldl (findBestRow a a) (0, 0, 0) = (0, 0, a.length)) := by
    apply foldl_preserve
      (P := fun best : Nat × Nat × Nat =>
        best.2.2 ≤ a.length ∧ (best.2.2 = a.length → best = (0, 0, a.length)))
    · refine ⟨Nat.zero_le _, fun h => absurd h ?_⟩
      simp only []
      omega
    · intro best i hi hQ
      exact hQrow best i (by have := List.mem_range.mp hi; omega) hQ
  set acc0 := (List.range m).foldl (findBestRow a a) (0, 0, 0) with hacc0def
  unfold findBestRow
  rw [hm, List.range_succ, List.foldl_append, List.foldl_cons, List.foldl_nil]
  have hacc1 : ((List.range m).foldl (findBestCell a a m) acc0).2.2 ≤ a.length ∧
      (((List.range m).foldl (findBestCell a a m) acc0).2.2 = a.length →
        (List.range m).foldl (findBestCell a a m) acc0 = (0, 0, a.length)) := by
    apply foldl_preserve
      (P := fun best : Nat × Nat × Nat =>
        best.2.2 ≤ a.length ∧ (best.2.2 = a.length → best = (0, 0, a.length)))
    · exact hacc0
    · intro best j hj hQ
      exact hQcell best m j (by omega) (by have := List.mem_range.mp hj; omega) hQ
  set acc1 := (List.range m).foldl (findBestCell a a m) acc0 with hacc1def
  have hdiag : matchLenAt a a m m = m + 1 := matchLenAt_self_diag a m (by omega)
  unfold findBestCell
  dsimp only
  rw [hdiag]
  by_cases hlt : acc1.2.2 < m + 1
  · rw [if_pos hlt]
    simp [hm]
  · rw [if_neg hlt]
    have h := hacc1.2 (by omega)
    rw [hm] at h
    exact h

theorem matchTotal_self (a : List Char) (ha : a ≠ []) :
    matchTotal a a = a.length := by
  rw [matchTotal_eq, findBest_self a ha]
  have hlen : a.length ≠ 0 := by
    have := List.length_pos.mpr ha
    omega
  simp [hlen, matchTotal_nil_left]

/-! ### Ratio-level lemmas -/

theorem seqRatioL_nonneg (a b : List Char) : 0 ≤ seqRatioL a b := by
  unfold seqRatioL
  split
  · norm_num
  · apply div_nonneg
    · positivity
    · positivity

theorem seqRatioL_le_one (a b : List Char) : seqRatioL a b ≤ 1 := by
  unfold seqRatioL
  split
  · norm_num
  · rename_i hne
    have hpos : (0 : ℚ) < (a.length : ℚ) + (b.length : ℚ) := by
      have : 0 < a.length + b.length := Nat.pos_of_ne_zero hne
      exact_mod_cast this
    rw [div_le_one hpos]
    have h1 := matchTotal_le_left a b
    have h2 := matchTotal_le_right a b
    have := Nat.add_le_add h1 h2
    exact_mod_cast by omega

theorem seqRatioL_self (a : List Char) (ha : a ≠ []) : seqRatioL a a = 1 := by
  unfold seqRatioL
  have hlen : a.length ≠ 0 := by
    have := List.length_pos.mpr ha
    omega
  rw [if_neg (by omega), matchTotal_self a ha]
  rw [div_eq_one_iff_eq (by exact_mod_cast by omega)]
  ring

theorem seqRatioL_nil_left (b : List Char) (hb : b ≠ []) :
    seqRatioL [] b = 0 := by
  unfold seqRatioL
  have hlen : b.length ≠ 0 := by
    have := List.length_pos.mpr hb
    omega
  rw [if_neg (by simpa using hlen), matchTotal_nil_left]
  simp

theorem seqRatioL_nil_right (a : List Char) (ha : a ≠ []) :
    seqRatioL a [] = 0 := by
  unfold seqRatioL
  have hlen : a.length ≠ 0 := by
    have := List.length_pos.mpr ha
    omega
  rw [if_neg (by simpa using hlen), matchTotal_nil_right]
  simp

theorem seqRatioL_nil_nil : seqRatioL [] [] = 1 := rfl

/-! ### String-level helpers -/

theorem pyLower_toList (s : String) :
    (pyLower s).toList = s.toList.map Char.toLower := rfl

theorem calculate_similarity_eq (g : SimilarityGrouper) (w1 w2 : String) :
    g.calculate_similarity w1 w2 =
      seqRatioL (w1.toList.map Char.toLower) (w2.toList.map Char.toLower) := rfl

theorem toList_eq_nil_iff (s : String) : s.toList = [] ↔ s = "" := by
  constructor
  · intro h
    exact String.ext (show s.data = "".data from h)
  · intro h
    subst h
    rfl

/-! ### Characterisation of the best-match scan -/

/-- A cluster clears both update conditions of the scan in
`group_similar_phrases` when the running best score is `bar`:
its average is at least `min_similar_words` and strictly above `bar`. -/
def qualifiesAbove (g : SimilarityGrouper) (phrase : String) (bar : ℚ)
    (c : Cluster) : Prop :=
  (g.min_similar_words : ℚ) ≤ g.average_similarity phrase c ∧
    bar < g.average_similarity phrase c

/-- The scan either leaves the accumulator untouched (no later cluster beats
it) or returns the earliest cluster attaining the maximal average among those
clearing the two update conditions. -/
theorem findBestMatch_char (g : SimilarityGrouper) (phrase : String) :
    ∀ (l : List Cluster) (start : ℕ) (best : Option ℕ × ℚ),
      (g.findBestMatch phrase start best l = best ∧
        ∀ i c, l.get? i = some c → ¬ qualifiesAbove g phrase best.2 c)
      ∨ (∃ i₀ c₀, l.get? i₀ = some c₀ ∧ qualifiesAbove g phrase best.2 c₀ ∧
          g.findBestMatch phrase start best l =
            (some (start + i₀), g.average_similarity phrase c₀) ∧
          (∀ j c', l.get? j = some c' → qualifiesAbove g phrase best.2 c' →
            g.average_similarity phrase c' ≤ g.average_similarity phrase c₀) ∧
          (∀ j c', j < i₀ → l.get? j = some c' →
            ¬(qualifiesAbove g phrase best.2 c' ∧
              g.average_similarity phrase c' =
                g.average_similarity phrase c₀))) := by
  intro l
  induction l with
  | nil =>
    intro start best
    left
    refine ⟨rfl, fun i c hc _ => ?_⟩
    simp at hc
  | cons c rest ih =>
    intro start best
    rw [show g.findBestMatch phrase start best (c :: rest) =
      g.findBestMatch phrase (start + 1)
        (if (g.min_similar_words : ℚ) ≤ g.average_similarity phrase c ∧
            best.2 < g.average_similarity phrase c then
          (some start, g.average_similarity phrase c)
        else best) rest from rfl]
    by_cases hc : (g.min_similar_words : ℚ) ≤ g.average_similarity phrase c ∧
        best.2 < g.average_similarity phrase c
    · rw [if_pos hc]
      rcases ih (start + 1) (some start, g.average_similarity phrase c) with
        ⟨hres, hnone⟩ | ⟨i₀, c₀, hget, hq, hres, hmax, hleft⟩
      · right
        refine ⟨0, c, rfl, hc, ?_, ?_, ?_⟩
        · rw [hres]
          rfl
        · intro j c' hj hq'
          match j with
          | 0 =>
            rw [show (c :: rest).get? 0 = some c from rfl,
              Option.some_inj] at hj
            subst hj
            exact le_refl _
          | j + 1 =>
            rw [List.get?_cons_succ] at hj
            by_contra hlt
            push_neg at hlt
            exact hnone j c' hj ⟨hq'.1, hlt⟩
        · intro j c' hj _
          omega
      · right
        have hqc : qualifiesAbove g phrase best.2 c₀ :=
          ⟨hq.1, lt_trans hc.2 hq.2⟩
        refine ⟨i₀ + 1, c₀, by simpa using hget, hqc, ?_, ?_, ?_⟩
        · rw [hres, show start + 1 + i₀ = start + (i₀ + 1) from by omega]
        · intro j c' hj hq'
          match j with
          | 0 =>
            rw [show (c :: rest).get? 0 = some c from rfl,
              Option.some_inj] at hj
            subst hj
            exact le_of_lt hq.2
          | j + 1 =>
            rw [List.get?_cons_succ] at hj
            by_cases hgt : g.average_similarity phrase c <
                g.average_similarity phrase c'
            · exact hmax j c' hj ⟨hq'.1, hgt⟩
            · push_neg at hgt
              exact le_of_lt (lt_of_le_of_lt hgt hq.2)
        · intro j c' hj hget'
          match j with
          | 0 =>
            rw [show (c :: rest).get? 0 = some c from rfl,
              Option.some_inj] at hget'
            subst hget'
            rintro ⟨_, heq⟩
            exact absurd heq (ne_of_lt hq.2)
          | j + 1 =>
            rw [List.get?_cons_succ] at hget'
            rintro ⟨hq', heq⟩
            exact hleft j c' (by omega) hget' ⟨⟨hq'.1, heq ▸ hq.2⟩, heq⟩
    · rw [if_neg hc]
      rcases ih (start + 1) best with
        ⟨hres, hnone⟩ | ⟨i₀, c₀, hget, hq, hres, hmax, hleft⟩
      · left
        refine ⟨hres, fun i c' hi => ?_⟩
        match i with
        | 0 =>
          rw [show (c :: rest).get? 0 = some c from rfl,
            Option.some_inj] at hi
          subst hi
          exact hc
        | i + 1 =>
          rw [List.get?_cons_succ] at hi
          exact hnone i c' hi
      · right
        refine ⟨i₀ + 1, c₀, by simpa using hget, hq, ?_, ?_, ?_⟩
        · rw [hres, show start + 1 + i₀ = start + (i₀ + 1) from by omega]
        · intro j c' hj hq'
          match j with
          | 0 =>
            rw [show (c :: rest).get? 0 = some c from rfl,
              Option.some_inj] at hj
            subst hj
            exact absurd hq' hc
          | j + 1 =>
            rw [List.get?_cons_succ] at hj
            exact hmax j c' hj hq'
        · intro j c' hj hget'
          match j with
          | 0 =>
            rw [show (c :: rest).get? 0 = some c from rfl,
              Option.some_inj] at hget'
            subst hget'
            rintro ⟨hq', _⟩
            exact hc hq'
          | j + 1 =>
            rw [List.get?_cons_succ] at hget'
            exact hleft j c' (by omega) hget'

/-- Case analysis of one assignment step: either no cluster clears the update
conditions and a fresh singleton cluster is appended, or the earliest cluster
with the maximal qualifying average is extended. -/
theorem assignPhrase_cases (g : SimilarityGrouper) (groups : List Cluster)
    (phrase : String) :
    (g.assignPhrase groups phrase =
        groups ++ [(g.extract_keywords phrase, [phrase])] ∧
      ∀ i c, groups.get? i = some c → ¬ qualifiesAbove g phrase 0 c)
    ∨ (∃ i₀ c₀, groups.get? i₀ = some c₀ ∧ qualifiesAbove g phrase 0 c₀ ∧
        (∀ j c', groups.get? j = some c' → qualifiesAbove g phrase 0 c' →
          g.average_similarity phrase c' ≤ g.average_similarity phrase c₀) ∧
        (∀ j c', j < i₀ → groups.get? j = some c' →
          ¬(qualifiesAbove g phrase 0 c' ∧
            g.average_similarity phrase c' =
              g.average_similarity phrase c₀)) ∧
        g.assignPhrase groups phrase =
          groups.set i₀
            (c₀.1 ∪ g.extract_keywords phrase, c₀.2 ++ [phrase])) := by
  rcases findBestMatch_char g phrase groups 0 (none, 0) with
    ⟨hres, hnone⟩ | ⟨i₀, c₀, hget, hq, hres, hmax, hleft⟩
  · left
    constructor
    · unfold SimilarityGrouper.assignPhrase
      rw [hres]
    · exact hnone
  · right
    refine ⟨i₀, c₀, hget, hq, hmax, hleft, ?_⟩
    unfold SimilarityGrouper.assignPhrase
    rw [hres]
    show (match groups.get? (0 + i₀) with
      | some c => groups.set (0 + i₀)
          (c.1 ∪ g.extract_keywords phrase, c.2 ++ [phrase])
      | none => groups) = _
    rw [Nat.zero_add, hget]

/-! ### Membership bookkeeping for clusters -/

theorem flatten_map_snd_set :
    ∀ (gs : List Cluster) (idx : ℕ) (c : Cluster) (kw : Finset String)
      (p : String), gs.get? idx = some c →
      ((gs.set idx (kw, c.2 ++ [p])).map Prod.snd).flatten.Perm
        ((gs.map Prod.snd).flatten ++ [p]) := by
  intro gs
  induction gs with
  | nil =>
    intro idx c kw p h
    simp at h
  | cons hd tl ih =>
    intro idx c kw p h
    match idx with
    | 0 =>
      rw [show (hd :: tl).get? 0 = some hd from rfl, Option.some_inj] at h
      subst h
      show ((hd.2 ++ [p]) ++ (tl.map Prod.snd).flatten).Perm
        ((hd.2 ++ (tl.map Prod.snd).flatten) ++ [p])
      rw [List.append_assoc, List.append_assoc]
      exact List.Perm.append_left hd.2 List.perm_append_comm
    | idx' + 1 =>
      rw [List.get?_cons_succ] at h
      show (hd.2 ++ ((tl.set idx' (kw, c.2 ++ [p])).map Prod.snd).flatten).Perm
        ((hd.2 ++ (tl.map Prod.snd).flatten) ++ [p])
      rw [List.append_assoc]
      exact List.Perm.append_left hd.2 (ih idx' c kw p h)

/-- One assignment step appends exactly the assigned phrase to the multiset
of cluster members. -/
theorem assignPhrase_members_perm (g : SimilarityGrouper)
    (groups : List Cluster) (phrase : String) :
    ((g.assignPhrase groups phrase).map Prod.snd).flatten.Perm
      ((groups.map Prod.snd).flatten ++ [phrase]) := by
  rcases assignPhrase_cases g groups phrase with
    ⟨hres, _⟩ | ⟨i₀, c₀, hget, _, _, _, hres⟩
  · rw [hres]
    simp
  · rw [hres]
    exact flatten_map_snd_set groups i₀ c₀ _ phrase hget

theorem foldl_assign_members_perm (g : SimilarityGrouper) :
    ∀ (ps : List String) (gs : List Cluster),
      ((ps.foldl g.assignPhrase gs).map Prod.snd).flatten.Perm
        ((gs.map Prod.snd).flatten ++ ps) := by
  intro ps
  induction ps with
  | nil =>
    intro gs
    simp
  | cons p ps ih =>
    intro gs
    have h1 := ih (g.assignPhrase gs p)
    have h2 := (assignPhrase_members_perm g gs p).append_right ps
    refine h1.trans (h2.trans ?_)
    rw [List.append_assoc]
    rfl

/-! ### The keyword-set invariant -/

/-- The union of `extract_keywords` over a member list, folded left as the
clusters accumulate it. -/
def unionKeywords (g : SimilarityGrouper) (members : List String) :
    Finset String :=
  members.foldl (fun s p => s ∪ g.extract_keywords p) ∅

theorem unionKeywords_append_singleton (g : SimilarityGrouper)
    (members : List String) (p : String) :
    unionKeywords g (members ++ [p]) =
      unionKeywords g members ∪ g.extract_keywords p := by
  unfold unionKeywords
  rw [List.foldl_append]
  rfl

theorem assignPhrase_keywords (g : SimilarityGrouper) (gs : List Cluster)
    (p : String) (h : ∀ c ∈ gs, c.1 = unionKeywords g c.2) :
    ∀ c ∈ g.assignPhrase gs p, c.1 = unionKeywords g c.2 := by
  rcases assignPhrase_cases g gs p with
    ⟨hres, _⟩ | ⟨i₀, c₀, hget, _, _, _, hres⟩
  · rw [hres]
    intro c hc
    rcases List.mem_append.mp hc with hc | hc
    · exact h c hc
    · rw [List.mem_singleton] at hc
      subst hc
      show g.extract_keywords p = unionKeywords g [p]
      simp [unionKeywords]
  · rw [hres]
    intro c hc
    rcases List.mem_or_eq_of_mem_set hc with hc | hc
    · exact h c hc
    · subst hc
      have hc₀ := h c₀ (List.get?_mem hget)
      show c₀.1 ∪ g.extract_keywords p = unionKeywords g (c₀.2 ++ [p])
      rw [unionKeywords_append_singleton, hc₀]

theorem group_keywords_inv (g : SimilarityGrouper) (phrases : List String) :
    ∀ c ∈ g.group_similar_phrases phrases, c.1 = unionKeywords g c.2 := by
  unfold SimilarityGrouper.group_similar_phrases
  exact foldl_preserve
    (P := fun gs : List Cluster => ∀ c ∈ gs, c.1 = unionKeywords g c.2)
    (f := g.assignPhrase) phrases []
    (by intro c hc; simp at hc)
    (fun gs p _ hP => assignPhrase_keywords g gs p hP)

/-! ### Properties of the similar-pairs accumulator -/

/-- Every recorded pair cleared the strict threshold test. -/
theorem similar_pairs_threshold (g : SimilarityGrouper) (p1 p2 : String) :
    ∀ pr ∈ g.similar_pairs p1 p2,
      g.similarity_threshold < g.calculate_similarity pr.1 pr.2 := by
  unfold SimilarityGrouper.similar_pairs
  refine foldl_preserve
    (P := fun pairs : List (String × String) => ∀ pr ∈ pairs,
      g.similarity_threshold < g.calculate_similarity pr.1 pr.2)
    _ _ (by intro pr h; simp at h) ?_
  intro pairs w1 _ hP
  refine foldl_preserve
    (P := fun pairs : List (String × String) => ∀ pr ∈ pairs,
      g.similarity_threshold < g.calculate_similarity pr.1 pr.2)
    _ _ hP ?_
  intro pairs' w2 _ hP'
  dsimp only
  split
  · split
    · rename_i hthr
      intro pr hpr
      rcases List.mem_append.mp hpr with h | h
      · exact hP' pr h
      · rw [List.mem_singleton] at h
        subst h
        exact hthr
    · exact hP'
  · exact hP'

/-- No unordered value pair is ever recorded twice: any two entries of the
pair list differ both as written and with the second one flipped. -/
theorem similar_pairs_nodup (g : SimilarityGrouper) (p1 p2 : String) :
    (g.similar_pairs p1 p2).Pairwise
      (fun p q : String × String => p ≠ q ∧ p ≠ (q.2, q.1)) := by
  unfold SimilarityGrouper.similar_pairs
  refine foldl_preserve
    (P := fun pairs : List (String × String) => pairs.Pairwise
      (fun p q : String × String => p ≠ q ∧ p ≠ (q.2, q.1)))
    _ _ (by simp) ?_
  intro pairs w1 _ hP
  refine foldl_preserve
    (P := fun pairs : List (String × String) => pairs.Pairwise
      (fun p q : String × String => p ≠ q ∧ p ≠ (q.2, q.1)))
    _ _ hP ?_
  intro pairs' w2 _ hP'
  dsimp only
  split
  · rename_i hnotin
    split
    · refine List.pairwise_append.mpr ⟨hP', by simp, ?_⟩
      intro a ha b hb
      rw [List.mem_singleton] at hb
      subst hb
      exact ⟨ne_of_mem_of_not_mem ha hnotin.1,
        ne_of_mem_of_not_mem ha hnotin.2⟩
    · exact hP'
  · exact hP'

/-! ### Whitespace-only phrases -/

theorem splitWsAux_all_ws :
    ∀ l : List Char, (∀ c ∈ l, c.isWhitespace) → splitWsAux l [] = [] := by
  intro l
  induction l with
  | nil =>
    intro _
    rfl
  | cons c cs ih =>
    intro h
    unfold splitWsAux
    rw [if_pos (h c (List.mem_cons_self c cs))]
    exact ih fun c' hc' => h c' (List.mem_cons_of_mem c hc')

theorem toLower_whitespace (c : Char) (h : c.isWhitespace) : c.toLower = c := by
  simp only [Char.isWhitespace, Bool.or_eq_true, decide_eq_true_eq] at h
  rcases h with ((rfl | rfl) | rfl) | rfl <;> decide

theorem extract_keywords_whitespace (g : SimilarityGrouper) (s : String)
    (h : ∀ c ∈ s.toList, c.isWhitespace) : g.extract_keywords s = ∅ := by
  unfold SimilarityGrouper.extract_keywords splitWs
  rw [pyLower_toList]
  have hall : ∀ c ∈ s.toList.map Char.toLower, c.isWhitespace := by
    intro c hc
    rcases List.mem_map.mp hc with ⟨c', hc', rfl⟩
    rw [toLower_whitespace c' (h c' hc')]
    exact h c' hc'
  rw [splitWsAux_all_ws _ hall]
  rfl

/-! ### Degenerate symmetry cases of the ratio -/

theorem seqRatioL_comm_nil (x : List Char) : seqRatioL [] x = seqRatioL x [] := by
  by_cases hx : x = []
  · subst hx
    rfl
  · rw [seqRatioL_nil_left x hx, seqRatioL_nil_right x hx]

/-! ## Claim theorems -/

/-- C1: `group_similar_phrases` partitions its input: the concatenation of
all cluster member lists is a permutation of the input list, so every input
phrase occurrence lands in exactly one cluster's member list, and the union
of the member lists as a set equals the set of input phrases. -/
theorem C1_partition (g : SimilarityGrouper) (phrases : List String) :
    (((g.group_similar_phrases phrases).map Prod.snd).flatten).Perm phrases ∧
      ((g.group_similar_phrases phrases).map Prod.snd).flatten.toFinset =
        phrases.toFinset := by
  unfold SimilarityGrouper.group_similar_phrases
  have h := foldl_assign_members_perm g phrases []
  simp only [List.map_nil, List.flatten_nil, List.nil_append] at h
  exact ⟨h, List.toFinset_eq_of_perm _ _ h⟩

/-- C2 (counterexample): constructing the engine with
`similarity_threshold = 2` (outside `[0,1]`) and `min_similar_words = 0`
(non-positive) does not fail fast: the invalid values are stored unchanged
and the engine clusters with them. -/
theorem C2_counterexample :
    (SimilarityGrouper.init 2 0).similarity_threshold = 2 ∧
      (SimilarityGrouper.init 2 0).min_similar_words = 0 ∧
      (SimilarityGrouper.init 2 0).group_similar_phrases ["a"] =
        [({"a"}, ["a"])] :=
  ⟨rfl, rfl, by with_unfolding_all decide⟩

/-- C2 (amended): the constructor performs no validation at all: every
configuration, even a threshold outside `[0,1]` or a non-positive
`min_similar_words`, is stored unchanged on the engine. -/
theorem C2_no_validation (t : ℚ) (m : ℤ) :
    (SimilarityGrouper.init t m).similarity_threshold = t ∧
      (SimilarityGrouper.init t m).min_similar_words = m :=
  ⟨rfl, rfl⟩

/-- C3: with a positive `min_similar_words`, a cluster qualifies exactly when
its average similarity is at least `min_similar_words`: if no cluster
qualifies the phrase is appended as a fresh singleton cluster at the end,
and otherwise the phrase joins a qualifying cluster whose average is maximal
among qualifying clusters, ties going to the earliest-created one. -/
theorem C3_selection (g : SimilarityGrouper) (phrase : String)
    (groups : List Cluster) (hmin : 0 < g.min_similar_words) :
    ((∀ c ∈ groups,
        g.average_similarity phrase c < (g.min_similar_words : ℚ)) →
      g.assignPhrase groups phrase =
        groups ++ [(g.extract_keywords phrase, [phrase])]) ∧
    (∀ i c, groups.get? i = some c →
      (g.min_similar_words : ℚ) ≤ g.average_similarity phrase c →
      ∃ i₀ c₀, groups.get? i₀ = some c₀ ∧
        (g.min_similar_words : ℚ) ≤ g.average_similarity phrase c₀ ∧
        (∀ j c', groups.get? j = some c' →
          (g.min_similar_words : ℚ) ≤ g.average_similarity phrase c' →
          g.average_similarity phrase c' ≤ g.average_similarity phrase c₀ ∧
            (g.average_similarity phrase c' =
              g.average_similarity phrase c₀ → i₀ ≤ j)) ∧
        g.assignPhrase groups phrase =
          groups.set i₀ (c₀.1 ∪ g.extract_keywords phrase,
            c₀.2 ++ [phrase])) := by
  have hpos : (0 : ℚ) < (g.min_similar_words : ℚ) := by exact_mod_cast hmin
  have hqual : ∀ c : Cluster,
      qualifiesAbove g phrase 0 c ↔
        (g.min_similar_words : ℚ) ≤ g.average_similarity phrase c := by
    intro c
    exact ⟨fun h => h.1, fun h => ⟨h, lt_of_lt_of_le hpos h⟩⟩
  constructor
  · intro hlt
    rcases assignPhrase_cases g groups phrase with ⟨hres, _⟩ |
      ⟨i₀, c₀, hget, hq, _, _, _⟩
    · exact hres
    · exact absurd ((hqual c₀).mp hq)
        (not_le.mpr (hlt c₀ (List.get?_mem hget)))
  · intro i c hget hc
    rcases assignPhrase_cases g groups phrase with ⟨_, hnone⟩ |
      ⟨i₀, c₀, hget₀, hq₀, hmax, hleft, hres⟩
    · exact absurd ((hqual c).mpr hc) (hnone i c hget)
    · refine ⟨i₀, c₀, hget₀, (hqual c₀).mp hq₀, ?_, hres⟩
      intro j c' hgetj hcj
      refine ⟨hmax j c' hgetj ((hqual c').mpr hcj), fun heq => ?_⟩
      by_contra hlt'
      push_neg at hlt'
      exact hleft j c' hlt' hgetj ⟨(hqual c').mpr hcj, heq⟩

/-- Witness for C3: with `min_similar_words = 1` and no existing clusters,
nothing qualifies, so the phrase founds a singleton cluster at the end. -/
theorem C3_selection_witness :
    (SimilarityGrouper.init (4/5) 1).assignPhrase [] "a" =
      [] ++ [((SimilarityGrouper.init (4/5) 1).extract_keywords "a", ["a"])] :=
  (C3_selection (SimilarityGrouper.init (4/5) 1) "a" []
    (by with_unfolding_all decide)).1 (by intro c hc; simp at hc)

/-- C4: a word pair is recorded by the counter only when its score strictly
exceeds `similarity_threshold`; a pair whose score exactly equals the
threshold is never recorded. -/
theorem C4_strict (g : SimilarityGrouper) (p1 p2 : String) :
    (∀ pr ∈ g.similar_pairs p1 p2,
      g.similarity_threshold < g.calculate_similarity pr.1 pr.2) ∧
    (∀ w1 w2 : String,
      g.calculate_similarity w1 w2 = g.similarity_threshold →
      (w1, w2) ∉ g.similar_pairs p1 p2) := by
  refine ⟨similar_pairs_threshold g p1 p2, ?_⟩
  intro w1 w2 heq hmem
  have h2 : g.similarity_threshold < g.calculate_similarity w1 w2 :=
    similar_pairs_threshold g p1 p2 (w1, w2) hmem
  rw [heq] at h2
  exact lt_irrefl _ h2

/-- Witness for C4: `"red"` scores `1` against itself, strictly above the
threshold `4/5`, and the pair is indeed recorded. -/
theorem C4_strict_witness :
    (4/5 : ℚ) <
      (SimilarityGrouper.init (4/5) 1).calculate_similarity "red" "red" :=
  (C4_strict (SimilarityGrouper.init (4/5) 1) "red" "red").1 ("red", "red")
    (by with_unfolding_all decide)

/-- C5 (counterexample): the word score is not symmetric: `"ab"` against
`"bacb"` scores `2/3`, but `"bacb"` against `"ab"` scores `1/3`. -/
theorem C5_counterexample :
    (SimilarityGrouper.init (4/5) 2).calculate_similarity "ab" "bacb" ≠
      (SimilarityGrouper.init (4/5) 2).calculate_similarity "bacb" "ab" := by
  with_unfolding_all decide

/-- C5 (amended): symmetry of the score holds in the degenerate cases of
identical arguments or an empty argument; in general it fails because the
longest-match tie-break depends on the argument order. -/
theorem C5_symm_special (g : SimilarityGrouper) (a b : String)
    (h : a = b ∨ a.toList = [] ∨ b.toList = []) :
    g.calculate_similarity a b = g.calculate_similarity b a := by
  rcases h with rfl | h | h
  · rfl
  · rw [calculate_similarity_eq, calculate_similarity_eq, h]
    simp only [List.map_nil]
    exact seqRatioL_comm_nil _
  · rw [calculate_similarity_eq, calculate_similarity_eq, h]
    simp only [List.map_nil]
    exact (seqRatioL_comm_nil _).symm

/-- Witness for C5 (amended): the empty word against `"ab"`. -/
theorem C5_symm_special_witness :
    (SimilarityGrouper.init (4/5) 2).calculate_similarity "" "ab" =
      (SimilarityGrouper.init (4/5) 2).calculate_similarity "ab" "" :=
  C5_symm_special (SimilarityGrouper.init (4/5) 2) "" "ab"
    (Or.inr (Or.inl rfl))

/-- C6: the score always lies in `[0,1]` (and is total, hence raises
nothing); a non-empty word scores `1` against itself; when exactly one word
is empty the score is `0`; when both are empty it is `1`. -/
theorem C6_range_and_edges (g : SimilarityGrouper) (a b : String) :
    (0 ≤ g.calculate_similarity a b ∧ g.calculate_similarity a b ≤ 1) ∧
    (a ≠ "" → g.calculate_similarity a a = 1) ∧
    (a = "" → b ≠ "" → g.calculate_similarity a b = 0) ∧
    (a ≠ "" → b = "" → g.calculate_similarity a b = 0) ∧
    (a = "" → b = "" → g.calculate_similarity a b = 1) := by
  refine ⟨⟨?_, ?_⟩, ?_, ?_, ?_, ?_⟩
  · rw [calculate_similarity_eq]
    exact seqRatioL_nonneg _ _
  · rw [calculate_similarity_eq]
    exact seqRatioL_le_one _ _
  · intro ha
    rw [calculate_similarity_eq]
    apply seqRatioL_self
    simp only [ne_eq, List.map_eq_nil_iff]
    exact fun h => ha ((toList_eq_nil_iff a).mp h)
  · intro ha hb
    rw [calculate_similarity_eq,
      show a.toList = [] from (toList_eq_nil_iff a).mpr ha]
    simp only [List.map_nil]
    apply seqRatioL_nil_left
    simp only [ne_eq, List.map_eq_nil_iff]
    exact fun h => hb ((toList_eq_nil_iff b).mp h)
  · intro ha hb
    rw [calculate_similarity_eq,
      show b.toList = [] from (toList_eq_nil_iff b).mpr hb]
    simp only [List.map_nil]
    apply seqRatioL_nil_right
    simp only [ne_eq, List.map_eq_nil_iff]
    exact fun h => ha ((toList_eq_nil_iff a).mp h)
  · intro ha hb
    subst ha
    subst hb
    rfl

/-- Witness for C6, exercising every edge case at concrete words. -/
theorem C6_range_and_edges_witness :
    (0 ≤ (SimilarityGrouper.init (4/5) 2).calculate_similarity "ab" "cd" ∧
      (SimilarityGrouper.init (4/5) 2).calculate_similarity "ab" "cd" ≤ 1) ∧
    (SimilarityGrouper.init (4/5) 2).calculate_similarity "ab" "ab" = 1 ∧
    (SimilarityGrouper.init (4/5) 2).calculate_similarity "" "cd" = 0 ∧
    (SimilarityGrouper.init (4/5) 2).calculate_similarity "ab" "" = 0 ∧
    (SimilarityGrouper.init (4/5) 2).calculate_similarity "" "" = 1 :=
  ⟨(C6_range_and_edges (SimilarityGrouper.init (4/5) 2) "ab" "cd").1,
    (C6_range_and_edges (SimilarityGrouper.init (4/5) 2) "ab" "ab").2.1
      (by decide),
    (C6_range_and_edges (SimilarityGrouper.init (4/5) 2) "" "cd").2.2.1
      rfl (by decide),
    (C6_range_and_edges (SimilarityGrouper.init (4/5) 2) "ab" "").2.2.2.1
      (by decide) rfl,
    (C6_range_and_edges (SimilarityGrouper.init (4/5) 2) "" "").2.2.2.2
      rfl rfl⟩

/-- C7: within one counter invocation a qualifying pair is counted at most
once per unordered value pair — any two recorded entries differ both as
written and with one of them flipped — while one word value may still match
several distinct values of the other phrase (`"aa aa"` vs `"aa ab"` counts
`(aa, aa)` and `(aa, ab)` once each, not four pairs). -/
theorem C7_unordered_dedup :
    (∀ (g : SimilarityGrouper) (p1 p2 : String),
      (g.similar_pairs p1 p2).Pairwise
        (fun p q : String × String => p ≠ q ∧ p ≠ (q.2, q.1))) ∧
    (SimilarityGrouper.init (2/5) 1).get_similar_words_count
      "aa aa" "aa ab" = 2 :=
  ⟨similar_pairs_nodup, by with_unfolding_all decide⟩

/-- C8: each cluster's keyword set equals the union of `extract_keywords`
over its members: the property is preserved by every single assignment step
(both the seeding and the appending branch), and consequently holds of every
cluster produced by `group_similar_phrases`. -/
theorem C8_keywords :
    (∀ (g : SimilarityGrouper) (gs : List Cluster) (p : String),
      (∀ c ∈ gs, c.1 = unionKeywords g c.2) →
      ∀ c ∈ g.assignPhrase gs p, c.1 = unionKeywords g c.2) ∧
    (∀ (g : SimilarityGrouper) (phrases : List String),
      ∀ c ∈ g.group_similar_phrases phrases, c.1 = unionKeywords g c.2) :=
  ⟨assignPhrase_keywords, group_keywords_inv⟩

/-- Witness for C8 at a concrete run with a single two-word phrase. -/
theorem C8_keywords_witness :
    ({"hello", "world"} : Finset String) =
      unionKeywords (SimilarityGrouper.init (4/5) 2) ["hello world"] :=
  C8_keywords.2 (SimilarityGrouper.init (4/5) 2) ["hello world"]
    (({"hello", "world"} : Finset String), ["hello world"])
    (by with_unfolding_all decide)

set_option maxRecDepth 100000 in
/-- C9: on `["red apple", "red pear", "blue car"]` with threshold `4/5` and
`min_similar_words = 1`, exactly two clusters result: the first with members
`["red apple", "red pear"]` and the second with member `["blue car"]`. -/
theorem C9_scenario :
    ((SimilarityGrouper.init (4/5) 1).group_similar_phrases
      ["red apple", "red pear", "blue car"]).map Prod.snd =
      [["red apple", "red pear"], ["blue car"]] := by
  with_unfolding_all decide

/-- C10: a phrase of only whitespace (the empty string included) has an
empty keyword set, and consequently an input containing only the empty
string yields a cluster with an empty keyword set, so the non-empty-keyword
invariant needs blank-filtered input. -/
theorem C10_blank :
    (∀ (g : SimilarityGrouper) (s : String),
      (∀ c ∈ s.toList, c.isWhitespace) → g.extract_keywords s = ∅) ∧
    (SimilarityGrouper.init (4/5) 2).group_similar_phrases [""] =
      [(∅, [""])] :=
  ⟨fun g s h => extract_keywords_whitespace g s h,
    by with_unfolding_all decide⟩

/-- Witness for C10 on a two-space phrase. -/
theorem C10_blank_witness :
    (SimilarityGrouper.init (4/5) 2).extract_keywords "  " = ∅ :=
  C10_blank.1 (SimilarityGrouper.init (4/5) 2) "  " (by decide)
